import Mathlib

/-!
Verification of the alphabet transliteration system
(`alphabet_converter_Version2.py` and `alphabet_reverse_Version2.py`).

A Python string is modelled as its list of Unicode codepoints (`List Char`);
Python `len`, indexing, slicing and `startswith` all work on codepoints, as do
the corresponding list operations here.  Python 3.7+ `dict`s preserve insertion
order, so each dict is modelled as an ordered association list with unique keys.
`str.upper()` / `str.lower()` are modelled by the ASCII case maps, which agree
with Python on every character the claims quantify over (Latin letters, digits,
punctuation, the symbol alphabet).
-/

namespace Alphabet

/-- A Python string: the list of its Unicode codepoints. -/
abbrev Str := List Char

/-- Combining acute accent U+0301 (second codepoint of the symbol for "A"). -/
def cAcute : Char := Char.ofNat 0x301

/-- Combining grave accent U+0300 (second codepoint of the symbols for "J" and "O"). -/
def cGrave : Char := Char.ofNat 0x300

/-- Combining macron U+0304 (second codepoint of the symbol for "U"). -/
def cMacron : Char := Char.ofNat 0x304

/-- The `MAPPING` dict of `alphabet_converter_Version2.py` (identical to the
`FORWARD` dict of `alphabet_reverse_Version2.py`), as an ordered association
list in the source's insertion order.  Codepoints were taken verbatim from the
source files. -/
def MAPPING : List (Str × Str) := [
  (['C', 'H'], ['T']),
  (['S', 'H'], ['ﾚ']),
  (['A'], ['V', cAcute]),
  (['B'], ['Г']),
  (['C'], ['ヲ']),
  (['D'], ['コ']),
  (['E'], ['H']),
  (['F'], ['∀']),
  (['G'], ['7']),
  (['H'], ['X']),
  (['I'], ['И']),
  (['J'], ['ﾚ', cGrave]),
  (['K'], ['ヲ']),
  (['L'], ['Z']),
  (['M'], ['П']),
  (['N'], ['L']),
  (['O'], ['V', cGrave]),
  (['P'], ['F']),
  (['Q'], ['ヲ']),
  (['R'], ['Z']),
  (['S'], ['Λ']),
  (['T'], ['E']),
  (['U'], ['V', cMacron]),
  (['V'], ['V']),
  (['W'], ['V']),
  (['X'], ['A']),
  (['Y'], ['K']),
  (['Z'], ['A'])
]

/-- The `FORWARD` dict of `alphabet_reverse_Version2.py`; textually identical
to `MAPPING`. -/
def FORWARD : List (Str × Str) := MAPPING

/-- Dict lookup: `d[k]` / `k in d`, as `Option`-returning search through the
ordered association list. -/
def lookup (m : List (Str × Str)) (k : Str) : Option Str :=
  match m with
  | [] => none
  | (a, b) :: rest => if a = k then some b else lookup rest k

/-- Python `str.upper()` on one codepoint, modelled on the ASCII range
(`'a'..'z'` map to `'A'..'Z'`, everything else is returned unchanged).  This
agrees with Python on all characters the claims range over. -/
def upperChar (c : Char) : Char :=
  if 97 ≤ c.toNat ∧ c.toNat ≤ 122 then Char.ofNat (c.toNat - 32) else c

/-- Python `str.lower()` on one codepoint, ASCII range. -/
def lowerChar (c : Char) : Char :=
  if 65 ≤ c.toNat ∧ c.toNat ≤ 90 then Char.ofNat (c.toNat + 32) else c

/-- `convert_text` of `alphabet_converter_Version2.py`: left-to-right scan,
two-character uppercased lookup first (only when at least two characters
remain), then single-character uppercased lookup, else pass the original
character through. -/
def convert_text : Str → Str
  | [] => []
  | a :: b :: rest =>
    match lookup MAPPING [upperChar a, upperChar b] with
    | some sym => sym ++ convert_text rest
    | none =>
      match lookup MAPPING [upperChar a] with
      | some sym => sym ++ convert_text (b :: rest)
      | none => a :: convert_text (b :: rest)
  | [a] =>
    match lookup MAPPING [upperChar a] with
    | some sym => sym
    | none => [a]

/-- One step of `build_reverse_map`'s loop body
`rev.setdefault(sym, []).append(latin)`: if `sym` is already a key its token
list is extended at the end, otherwise the new key is appended (dicts keep
insertion order). -/
def addEntry (rev : List (Str × List Str)) (sym : Str) (latin : Str) :
    List (Str × List Str) :=
  match rev with
  | [] => [(sym, [latin])]
  | (s, ls) :: rest =>
    if s = sym then (s, ls ++ [latin]) :: rest
    else (s, ls) :: addEntry rest sym latin

/-- `build_reverse_map` of `alphabet_reverse_Version2.py`: iterate the
`(latin, sym)` pairs of the forward map in order, grouping Latin tokens by
symbol. -/
def build_reverse_map (fm : List (Str × Str)) : List (Str × List Str) :=
  fm.foldl (fun rev p => addEntry rev p.2 p.1) []

/-- `REVERSE = build_reverse_map(FORWARD)`. -/
def REVERSE : List (Str × List Str) := build_reverse_map FORWARD

/-- Lookup in the reverse map (`REVERSE.get(symbol)`). -/
def lookupRev (m : List (Str × List Str)) (k : Str) : Option (List Str) :=
  match m with
  | [] => none
  | (a, b) :: rest => if a = k then some b else lookupRev rest k

/-- Stable insertion of a string into a list already sorted by descending
length: `x` goes before the first entry strictly shorter than it, hence after
all earlier entries of equal length. -/
def insertByLenDesc (x : Str) : List Str → List Str
  | [] => [x]
  | y :: ys =>
    if x.length < y.length then y :: insertByLenDesc x ys else x :: y :: ys

/-- Stable sort by descending length, modelling Python's stable
`sorted(keys, key=len, reverse=True)` (ties keep their original order). -/
def sortByLenDesc : List Str → List Str
  | [] => []
  | x :: xs => insertByLenDesc x (sortByLenDesc xs)

/-- `SYMBOLS_SORTED = sorted(REVERSE.keys(), key=len, reverse=True)`. -/
def SYMBOLS_SORTED : List Str := sortByLenDesc (REVERSE.map Prod.fst)

/-- Python string `<=`: lexicographic comparison by codepoint, a proper
prefix preceding every extension. -/
def strLe (a b : Str) : Bool :=
  match a, b with
  | [], _ => true
  | _ :: _, [] => false
  | x :: xs, y :: ys =>
    if x < y then true else if y < x then false else strLe xs ys

/-- Stable insertion for `sorted` on strings. -/
def insertStr (x : Str) : List Str → List Str
  | [] => [x]
  | y :: ys => if strLe x y then x :: y :: ys else y :: insertStr x ys

/-- Python `sorted(options)`: stable ascending lexicographic sort. -/
def sortedStrs : List Str → List Str
  | [] => []
  | x :: xs => insertStr x (sortedStrs xs)

/-- Lookup in a preference table (`symbol in preferences` /
`preferences[symbol]`).  The table is an ordered association list; `[]` models
both `None` and the empty dict (both falsy, and lookup in either fails). -/
def lookupPref (m : List (Str × Str)) (k : Str) : Option Str :=
  match m with
  | [] => none
  | (a, b) :: rest => if a = k then some b else lookupPref rest k

/-- `choose_latin_for_symbol` of `alphabet_reverse_Version2.py`.  The source's
`if preferences and symbol in preferences and preferences[symbol] in options`
is modelled by the lookup: when `preferences` is empty or lacks `symbol` the
lookup returns `none`, exactly the cases where the Python condition is false
via truthiness or the `in` test.  `sorted(options)[0]` is the head of the
stable ascending sort. -/
def choose_latin_for_symbol (symbol : Str)
    (preferences : List (Str × Str)) : Option Str :=
  match lookupRev REVERSE symbol with
  | none => none
  | some [] => none
  | some [t] => some t
  | some options =>
    match lookupPref preferences symbol with
    | some p =>
      if p ∈ options then some p else some ((sortedStrs options).headD [])
    | none => some ((sortedStrs options).headD [])

/-- Python `s.startswith(pre, i)` on the suffix `s.drop i`: is `pre` an initial
segment of `s`? -/
def startswith (s pre : Str) : Bool :=
  match pre, s with
  | [], _ => true
  | _ :: _, [] => false
  | b :: bs, a :: as_ => a = b && startswith as_ bs

/-- The inner `for sym in SYMBOLS_SORTED` loop of `reverse_convert`: the first
symbol in the given order that is a prefix of the remaining input. -/
def findSym (syms : List Str) (s : Str) : Option Str :=
  match syms with
  | [] => none
  | sym :: rest => if startswith s sym then some sym else findSym rest s

/-- `reverse_convert` of `alphabet_reverse_Version2.py`: left-to-right scan;
at each position the first symbol of `SYMBOLS_SORTED` that matches is consumed
and resolved through `choose_latin_for_symbol` (the symbol itself is preserved
if that returns `None`); if no symbol matches, the current character is passed
through.  Termination: every matched symbol is a nonempty member of
`SYMBOLS_SORTED` and a prefix of the remaining input, so the position strictly
advances — this is the `i += len(sym)` / `i += 1` progress argument of the
source's `while` loop. -/
def reverse_convert (s : Str) (preferences : List (Str × Str)) : Str :=
  match h : findSym SYMBOLS_SORTED s with
  | some sym =>
    (match choose_latin_for_symbol sym preferences with
     | none => sym
     | some latin => latin) ++ reverse_convert (s.drop sym.length) preferences
  | none =>
    match s with
    | [] => []
    | c :: rest => c :: reverse_convert rest preferences
termination_by s.length
decreasing_by
  · have key : ∀ (syms : List Str) (t sym' : Str), findSym syms t = some sym' →
        sym' ∈ syms ∧ startswith t sym' = true := by
      intro syms
      induction syms with
      | nil => intro t sym' h'; simp [findSym] at h'
      | cons y ys ih =>
        intro t sym' h'
        by_cases hy : startswith t y = true
        · simp [findSym, hy] at h'
          subst h'
          exact ⟨List.mem_cons_self _ _, hy⟩
        · simp [findSym, hy] at h'
          rcases ih t sym' h' with ⟨h1, h2⟩
          exact ⟨List.mem_cons_of_mem _ h1, h2⟩
    have hlen : ∀ (pre t : Str), startswith t pre = true → pre.length ≤ t.length := by
      intro pre
      induction pre with
      | nil => simp
      | cons b bs ih =>
        intro t h'
        cases t with
        | nil => simp [startswith] at h'
        | cons a as_ =>
          simp only [startswith, Bool.and_eq_true, decide_eq_true_eq] at h'
          simpa using Nat.succ_le_succ (ih as_ h'.2)
    rcases key _ _ _ h with ⟨hmem, hpre⟩
    have hne : sym ≠ [] := by
      have hall : ∀ x ∈ SYMBOLS_SORTED, x ≠ ([] : Str) := by decide
      exact hall sym hmem
    have hl : sym.length ≤ s.length := hlen _ _ hpre
    have hpos : 0 < sym.length := List.length_pos.mpr hne
    simp only [List.length_drop]
    omega
  · simp

/-- The uppercase Latin letters whose forward symbol reverse-resolves to the
letter itself under empty preferences (the lexicographic-min fallback): all of
`A`–`Z` except `K`, `Q` (symbol ヲ resolves to `C`), `R` (symbol `Z` resolves
to `L`), `W` (symbol `V` resolves to `V`) and `Z` (symbol `A` resolves to
`X`). -/
def goodLetters : List Char :=
  ['A', 'B', 'C', 'D', 'E', 'F', 'G', 'H', 'I', 'J', 'L', 'M', 'N', 'O', 'P',
   'S', 'T', 'U', 'V', 'X', 'Y']

/-- A string whose first codepoint (if any) is not one of the three combining
marks used by the symbol alphabet.  Every output of `convert_text`, and every
tail obtained by stripping whole symbols from such an output, satisfies this;
it is what rules out a length-2 symbol spuriously matching across a symbol
boundary. -/
def headSafe : Str → Bool
  | [] => true
  | a :: _ => !(a == cAcute || a == cGrave || a == cMacron)

/-- The 52 ASCII Latin letters; the uppercase image of each is a single-letter
key of `MAPPING`. -/
def latinLetters : List Char :=
  ['A', 'B', 'C', 'D', 'E', 'F', 'G', 'H', 'I', 'J', 'K', 'L', 'M', 'N', 'O',
   'P', 'Q', 'R', 'S', 'T', 'U', 'V', 'W', 'X', 'Y', 'Z',
   'a', 'b', 'c', 'd', 'e', 'f', 'g', 'h', 'i', 'j', 'k', 'l', 'm', 'n', 'o',
   'p', 'q', 'r', 's', 't', 'u', 'v', 'w', 'x', 'y', 'z']

end Alphabet

namespace Alphabet

/-! ### Basic facts about the matcher -/

theorem findSym_eq_some {syms : List Str} {s sym : Str}
    (h : findSym syms s = some sym) :
    sym ∈ syms ∧ startswith s sym = true := by
  induction syms with
  | nil => simp [findSym] at h
  | cons y ys ih =>
    by_cases hy : startswith s y = true
    · simp [findSym, hy] at h
      subst h
      exact ⟨List.mem_cons_self _ _, hy⟩
    · simp [findSym, hy] at h
      rcases ih h with ⟨h1, h2⟩
      exact ⟨List.mem_cons_of_mem _ h1, h2⟩

theorem startswith_length_le {s pre : Str} (h : startswith s pre = true) :
    pre.length ≤ s.length := by
  induction pre generalizing s with
  | nil => simp
  | cons b bs ih =>
    cases s with
    | nil => simp [startswith] at h
    | cons a as_ =>
      simp only [startswith, Bool.and_eq_true, decide_eq_true_eq] at h
      simpa using Nat.succ_le_succ (ih h.2)

theorem symbols_sorted_ne_nil : ∀ sym ∈ SYMBOLS_SORTED, sym ≠ [] := by
  decide

/-! ### Unfolding equations for `reverse_convert` -/

theorem reverse_convert_pos (s : Str) (prefs : List (Str × Str)) (sym : Str)
    (h : findSym SYMBOLS_SORTED s = some sym) :
    reverse_convert s prefs =
      (match choose_latin_for_symbol sym prefs with
       | none => sym
       | some latin => latin) ++ reverse_convert (s.drop sym.length) prefs := by
  rw [reverse_convert]
  split
  · rename_i sym' h'
    rw [h] at h'
    injection h' with h''
    subst h''
    rfl
  · rename_i h'
    rw [h] at h'
    exact absurd h' (by simp)

theorem reverse_convert_nil (prefs : List (Str × Str)) :
    reverse_convert [] prefs = [] := by
  rw [reverse_convert]
  split
  · rename_i sym' h'
    have hn : findSym SYMBOLS_SORTED ([] : Str) = none := by decide
    rw [hn] at h'
    exact absurd h' (by simp)
  · rfl

theorem reverse_convert_pass (c : Char) (rest : Str) (prefs : List (Str × Str))
    (h : findSym SYMBOLS_SORTED (c :: rest) = none) :
    reverse_convert (c :: rest) prefs = c :: reverse_convert rest prefs := by
  rw [reverse_convert]
  split
  · rename_i sym' h'
    rw [h] at h'
    exact absurd h' (by simp)
  · rfl

end Alphabet

namespace Alphabet

/-! ### The lexicographic order used by `sorted(options)` -/

theorem strLe_cons_iff (x y : Char) (xs ys : Str) :
    strLe (x :: xs) (y :: ys) = true ↔ x < y ∨ (x = y ∧ strLe xs ys = true) := by
  simp only [strLe]
  rcases lt_trichotomy x y with h | h | h
  · simp [h]
  · subst h
    simp [lt_irrefl]
  · have h1 : ¬ x < y := asymm h
    have h2 : x ≠ y := ne_of_gt h
    simp [h1, h, h2]

theorem strLe_refl (a : Str) : strLe a a = true := by
  induction a with
  | nil => rfl
  | cons x xs ih => simp [strLe_cons_iff, ih]

theorem strLe_total (a b : Str) : strLe a b = true ∨ strLe b a = true := by
  induction a generalizing b with
  | nil => left; rfl
  | cons x xs ih =>
    cases b with
    | nil => right; rfl
    | cons y ys =>
      rcases lt_trichotomy x y with h | h | h
      · left
        simp [strLe_cons_iff, h]
      · subst h
        rcases ih ys with h' | h'
        · left; simp [strLe_cons_iff, h']
        · right; simp [strLe_cons_iff, h']
      · right
        simp [strLe_cons_iff, h]

theorem strLe_trans (a b c : Str) (h1 : strLe a b = true)
    (h2 : strLe b c = true) : strLe a c = true := by
  induction a generalizing b c with
  | nil => rfl
  | cons x xs ih =>
    cases b with
    | nil => simp [strLe] at h1
    | cons y ys =>
      cases c with
      | nil => simp [strLe] at h2
      | cons z zs =>
        rw [strLe_cons_iff] at h1 h2 ⊢
        rcases h1 with h1 | ⟨h1e, h1r⟩
        · rcases h2 with h2 | ⟨h2e, h2r⟩
          · exact Or.inl (lt_trans h1 h2)
          · exact Or.inl (h2e ▸ h1)
        · rcases h2 with h2 | ⟨h2e, h2r⟩
          · exact Or.inl (h1e ▸ h2)
          · exact Or.inr ⟨h1e.trans h2e, ih ys zs h1r h2r⟩

theorem mem_insertStr (x o : Str) (l : List Str) :
    x ∈ insertStr o l ↔ x = o ∨ x ∈ l := by
  induction l with
  | nil => simp [insertStr]
  | cons y ys ih =>
    simp only [insertStr]
    by_cases h : strLe o y = true
    · simp [h]
    · simp [h, ih]
      tauto

theorem mem_sortedStrs (x : Str) (l : List Str) :
    x ∈ sortedStrs l ↔ x ∈ l := by
  induction l with
  | nil => simp [sortedStrs]
  | cons y ys ih => simp [sortedStrs, mem_insertStr, ih]

theorem sortedStrs_eq_nil_iff (l : List Str) : sortedStrs l = [] ↔ l = [] := by
  cases l with
  | nil => simp [sortedStrs]
  | cons y ys =>
    simp only [sortedStrs]
    constructor
    · intro h
      have : y ∈ insertStr y (sortedStrs ys) := by simp [mem_insertStr]
      rw [h] at this
      simp at this
    · intro h
      simp at h

/-- The head of `sorted(options)` is a member of `options` and is `≤` every
member: `sorted(options)[0]` is the lexicographic minimum. -/
theorem sortedStrs_headD_min (l : List Str) (hne : l ≠ []) :
    (sortedStrs l).headD [] ∈ l ∧
      ∀ x ∈ l, strLe ((sortedStrs l).headD []) x = true := by
  induction l with
  | nil => exact absurd rfl hne
  | cons o os ih =>
    rcases hs : sortedStrs os with _ | ⟨y, ys⟩
    · have hos : os = [] := (sortedStrs_eq_nil_iff os).mp hs
      subst hos
      simp [sortedStrs, insertStr, strLe_refl]
    · have hos : os ≠ [] := by
        intro h; rw [h] at hs; simp [sortedStrs] at hs
      rcases ih hos with ⟨ihmem, ihle⟩
      rw [hs] at ihmem ihle
      simp only [List.headD_cons] at ihmem ihle
      simp only [sortedStrs, hs, insertStr]
      by_cases h : strLe o y = true
      · simp only [h, if_true, List.headD_cons]
        refine ⟨List.mem_cons_self _ _, ?_⟩
        intro x hx
        rcases List.mem_cons.mp hx with hx | hx
        · rw [hx]; exact strLe_refl o
        · exact strLe_trans o y x h (ihle x hx)
      · simp only [h, if_false, List.headD_cons]
        refine ⟨List.mem_cons_of_mem _ ihmem, ?_⟩
        intro x hx
        rcases List.mem_cons.mp hx with hx | hx
        · subst hx
          rcases strLe_total x y with h' | h'
          · exact absurd h' h
          · exact h'
        · exact ihle x hx

/-! ### Claim C3: shape of the Mapping Table -/

/-- **C3, counterexample.** The claim says the Mapping Table has exactly 24
single-letter tokens; in the source every one of the 26 Latin letters is a
single-letter key (`C`, `K`, `Q` and `L`, `R` and `V`, `W` and `X`, `Z` merely
share output symbols), so the single-letter token count is 26, not 24, and the
table has 28 entries. -/
theorem claim_C3_counterexample :
    (MAPPING.map Prod.fst).countP (fun t => t.length == 1) = 26 ∧
    ¬ (MAPPING.map Prod.fst).countP (fun t => t.length == 1) = 24 := by
  refine ⟨by decide, by decide⟩

/-- **C3, amended.** The Mapping Table has exactly two digraph (two-letter)
tokens and exactly 26 single-letter tokens (28 entries in all, and the
`FORWARD` copy in the reverse script is identical), and every token is a one-
or two-character uppercase Latin (`'A'..'Z'`) string. -/
theorem claim_C3 :
    (MAPPING.map Prod.fst).countP (fun t => t.length == 2) = 2 ∧
    (MAPPING.map Prod.fst).countP (fun t => t.length == 1) = 26 ∧
    MAPPING.length = 28 ∧
    FORWARD = MAPPING ∧
    (MAPPING.map Prod.fst).all
      (fun t => decide (1 ≤ t.length) && decide (t.length ≤ 2) &&
        t.all (fun c => decide ('A' ≤ c) && decide (c ≤ 'Z'))) = true := by
  refine ⟨by decide, by decide, by decide, rfl, by decide⟩

/-! ### Claim C10: the reverse converter rewrites some plain ASCII -/

/-- **C10.** Eleven plain ASCII characters are themselves symbol keys of the
Inverse Mapping, and consequently the reverse converter is not the identity on
digits: `reverse_convert("7", {}) == "G"`. -/
theorem claim_C10 :
    ([['7'], ['A'], ['E'], ['F'], ['H'], ['K'], ['L'], ['T'], ['V'], ['X'],
      ['Z']] : List Str).all
        (fun t => decide (t ∈ REVERSE.map Prod.fst)) = true ∧
    reverse_convert ['7'] [] = ['G'] ∧ (['7'] : Str) ≠ ['G'] := by
  refine ⟨by decide, ?_, by decide⟩
  have h : findSym SYMBOLS_SORTED (['7'] : Str) = some ['7'] := by decide
  rw [reverse_convert_pos _ _ _ h]
  have hc : choose_latin_for_symbol ['7'] [] = some ['G'] := by decide
  rw [hc]
  simp [reverse_convert_nil]

end Alphabet

namespace Alphabet

/-! ### Claim C2: the three-tier ambiguity resolution rule -/

/-- **C2.** `choose_latin_for_symbol` resolves every symbol by the three-tier
rule: a symbol with exactly one candidate token returns that token; otherwise a
preferences entry for the symbol is used exactly when it is among the symbol's
valid candidates; otherwise the lexicographically smallest candidate (a member
of the candidate list that is `strLe` every candidate) is returned.  With empty
preferences the symbol ヲ (for C/K/Q) resolves to `"C"`, and with preferences
`\x7b"ヲ": "K"\x7d` it resolves to `"K"`. -/
theorem claim_C2 :
    (∀ sym t prefs, lookupRev REVERSE sym = some [t] →
      choose_latin_for_symbol sym prefs = some t) ∧
    (∀ sym opts prefs p, lookupRev REVERSE sym = some opts → 2 ≤ opts.length →
      lookupPref prefs sym = some p → p ∈ opts →
      choose_latin_for_symbol sym prefs = some p) ∧
    (∀ sym opts prefs, lookupRev REVERSE sym = some opts → 2 ≤ opts.length →
      (∀ p, lookupPref prefs sym = some p → p ∉ opts) →
      ∃ r, choose_latin_for_symbol sym prefs = some r ∧ r ∈ opts ∧
        ∀ x ∈ opts, strLe r x = true) ∧
    choose_latin_for_symbol ['ヲ'] [] = some ['C'] ∧
    choose_latin_for_symbol ['ヲ'] [(['ヲ'], ['K'])] = some ['K'] := by
  refine ⟨?_, ?_, ?_, by decide, by decide⟩
  · intro sym t prefs h
    simp [choose_latin_for_symbol, h]
  · intro sym opts prefs p h hlen hpref hmem
    rcases opts with _ | ⟨o1, _ | ⟨o2, os⟩⟩
    · simp at hlen
    · simp at hlen
    · simp only [choose_latin_for_symbol, h, hpref]
      simp [hmem]
  · intro sym opts prefs h hlen hnone
    rcases opts with _ | ⟨o1, _ | ⟨o2, os⟩⟩
    · simp at hlen
    · simp at hlen
    · rcases sortedStrs_headD_min (o1 :: o2 :: os) (by simp) with ⟨hm, hle⟩
      refine ⟨(sortedStrs (o1 :: o2 :: os)).headD [], ?_, hm, hle⟩
      rcases hlp : lookupPref prefs sym with _ | p
      · simp [choose_latin_for_symbol, h, hlp]
      · have hnp : p ∉ o1 :: o2 :: os := hnone p hlp
        simp [choose_latin_for_symbol, h, hlp, hnp]

/-- Witness for C2: each tier applied at a concrete symbol — the unambiguous Г
returns `"B"`; a valid preference `Z → R` is honoured; with no preferences the
ambiguous `V` resolves to its lexicographic minimum. -/
theorem claim_C2_witness :
    choose_latin_for_symbol ['Г'] [] = some ['B'] ∧
    choose_latin_for_symbol ['Z'] [(['Z'], ['R'])] = some ['R'] ∧
    ∃ r, choose_latin_for_symbol ['V'] [] = some r ∧ r ∈ [['V'], ['W']] ∧
      ∀ x ∈ [['V'], ['W']], strLe r x = true :=
  ⟨claim_C2.1 ['Г'] ['B'] [] (by decide),
   claim_C2.2.1 ['Z'] [['L'], ['R']] [(['Z'], ['R'])] ['R']
     (by decide) (by decide) (by decide) (by decide),
   claim_C2.2.2.1 ['V'] [['V'], ['W']] [] (by decide) (by decide)
     (by intro p hp; simp [lookupPref] at hp)⟩

end Alphabet

namespace Alphabet

theorem lookup_mem {m : List (Str × Str)} {k v : Str}
    (h : lookup m k = some v) : k ∈ m.map Prod.fst := by
  induction m with
  | nil => simp [lookup] at h
  | cons p rest ih =>
    rcases p with ⟨a, b⟩
    by_cases ha : a = k
    · subst ha; simp
    · simp [lookup, ha] at h
      simp [ih h]

theorem two_char_keys : ∀ t ∈ MAPPING.map Prod.fst, t.length = 2 →
    t = ['C', 'H'] ∨ t = ['S', 'H'] := by decide

/-- If the single-character lookup for `a` fails, so does every two-character
lookup starting at `a`: the two digraph keys begin with `C` and `S`, which are
both single-letter keys themselves. -/
theorem lookup_two_none (a b : Char)
    (ha : lookup MAPPING [a] = none) : lookup MAPPING [a, b] = none := by
  rcases h2 : lookup MAPPING [a, b] with _ | sym
  · rfl
  · exfalso
    have hk := lookup_mem h2
    rcases two_char_keys _ hk (by simp) with h | h
    · have haC : a = 'C' := by injection h
      rw [haC] at ha
      exact absurd ha (by decide)
    · have haS : a = 'S' := by injection h
      rw [haS] at ha
      exact absurd ha (by decide)

/-! ### Claim C5: digraph priority in the forward converter -/

/-- **C5.** Whenever at least two characters remain, the forward converter
attempts the two-character uppercased match before any single-character match:
a successful digraph lookup is emitted and consumes two characters regardless
of what the single characters map to; in particular `"CH"` (in any casing)
converts to `"T"` — not to `convert("C") ++ convert("H")` — and `"SH"` (in any
casing) converts to `"ﾚ"`. -/
theorem claim_C5 :
    (∀ a b rest sym, lookup MAPPING [upperChar a, upperChar b] = some sym →
      convert_text (a :: b :: rest) = sym ++ convert_text rest) ∧
    convert_text ['C', 'H'] = ['T'] ∧
    convert_text ['c', 'h'] = ['T'] ∧
    convert_text ['C', 'h'] = ['T'] ∧
    convert_text ['c', 'H'] = ['T'] ∧
    convert_text ['C', 'H'] ≠ convert_text ['C'] ++ convert_text ['H'] ∧
    convert_text ['S', 'H'] = ['ﾚ'] ∧
    convert_text ['s', 'h'] = ['ﾚ'] ∧
    convert_text ['S', 'h'] = ['ﾚ'] ∧
    convert_text ['s', 'H'] = ['ﾚ'] := by
  refine ⟨?_, by decide, by decide, by decide, by decide, by decide,
    by decide, by decide, by decide, by decide⟩
  intro a b rest sym h
  simp [convert_text, h]

/-- Witness for C5: the digraph branch applied at `'C' 'H'` with a nonempty
tail. -/
theorem claim_C5_witness :
    convert_text ['C', 'H', 'X'] = ['T'] ++ convert_text ['X'] :=
  claim_C5.1 'C' 'H' ['X'] ['T'] (by decide)

/-! ### Claim C7: pass-through of unmapped characters -/

/-- **C7.** `convert_text` is the identity on every string whose characters
all have an unmapped uppercase form (digits, punctuation, emoji, …): such
characters are emitted verbatim, preserving case and identity. -/
theorem claim_C7 (s : Str)
    (h : ∀ c ∈ s, lookup MAPPING [upperChar c] = none) :
    convert_text s = s := by
  induction s with
  | nil => rfl
  | cons a rest ih =>
    have ha : lookup MAPPING [upperChar a] = none := h a (List.mem_cons_self _ _)
    have hrest : ∀ c ∈ rest, lookup MAPPING [upperChar c] = none :=
      fun c hc => h c (List.mem_cons_of_mem _ hc)
    cases rest with
    | nil => simp [convert_text, ha]
    | cons b rest' =>
      have h2 : lookup MAPPING [upperChar a, upperChar b] = none :=
        lookup_two_none _ _ ha
      simp only [convert_text, h2, ha]
      simp [ih hrest]

/-- Witness for C7: digits, punctuation and an emoji pass through unchanged. -/
theorem claim_C7_witness :
    convert_text ['1', '2', '3', '-', '!', Char.ofNat 0x1F389] =
      ['1', '2', '3', '-', '!', Char.ofNat 0x1F389] :=
  claim_C7 ['1', '2', '3', '-', '!', Char.ofNat 0x1F389] (by decide)

end Alphabet

namespace Alphabet

/-! ### Claim C6: case-insensitivity on Latin-letter strings -/

theorem latin_facts : ∀ c ∈ latinLetters,
    (lookup MAPPING [upperChar c]).isSome = true ∧
    upperChar (upperChar c) = upperChar c ∧
    upperChar (lowerChar c) = upperChar c := by decide

/-- **C6.** For every string consisting solely of Latin letters (all of which
are mapped), forward conversion of the uppercased string and of the lowercased
string both coincide with forward conversion of the original: input casing
never affects which mapping is chosen. -/
theorem claim_C6 (s : Str) (h : ∀ c ∈ s, c ∈ latinLetters) :
    convert_text (s.map upperChar) = convert_text s ∧
    convert_text (s.map lowerChar) = convert_text s := by
  induction s using convert_text.induct with
  | case1 => exact ⟨rfl, rfl⟩
  | case2 a b rest sym hab ih =>
    have ha := latin_facts a (h a (by simp))
    have hb := latin_facts b (h b (by simp))
    have hrest : ∀ c ∈ rest, c ∈ latinLetters := by
      intro c hc
      exact h c (by simp [hc])
    rcases ih hrest with ⟨ihu, ihl⟩
    constructor
    · simp only [List.map_cons, convert_text, ha.2.1, hb.2.1, hab, ihu]
    · simp only [List.map_cons, convert_text, ha.2.2, hb.2.2, hab, ihl]
  | case3 a b rest h2 sym h1 ih =>
    have ha := latin_facts a (h a (by simp))
    have hb := latin_facts b (h b (by simp))
    have hrest : ∀ c ∈ b :: rest, c ∈ latinLetters := by
      intro c hc
      rcases List.mem_cons.mp hc with hc | hc
      · exact h c (by simp [hc])
      · exact h c (by simp [hc])
    rcases ih hrest with ⟨ihu, ihl⟩
    simp only [List.map_cons] at ihu ihl
    constructor
    · simp only [List.map_cons, convert_text, ha.2.1, hb.2.1, h2, h1, ihu]
    · simp only [List.map_cons, convert_text, ha.2.2, hb.2.2, h2, h1, ihl]
  | case4 a b rest h2 h1 ih =>
    have ha := latin_facts a (h a (by simp))
    rw [h1] at ha
    simp at ha
  | case5 a sym h1 =>
    have ha := latin_facts a (h a (by simp))
    constructor
    · simp only [List.map_cons, List.map_nil, convert_text, ha.2.1, h1]
    · simp only [List.map_cons, List.map_nil, convert_text, ha.2.2, h1]
  | case6 a h1 =>
    have ha := latin_facts a (h a (by simp))
    rw [h1] at ha
    simp at ha

/-- Witness for C6: `"Hello"` converts identically to `"HELLO"` and
`"hello"`. -/
theorem claim_C6_witness :
    convert_text (['H', 'e', 'l', 'l', 'o'].map upperChar) =
        convert_text ['H', 'e', 'l', 'l', 'o'] ∧
    convert_text (['H', 'e', 'l', 'l', 'o'].map lowerChar) =
        convert_text ['H', 'e', 'l', 'l', 'o'] :=
  claim_C6 ['H', 'e', 'l', 'l', 'o'] (by decide)

end Alphabet

namespace Alphabet

/-! ### Claim C4: symbol match order and longest-match -/

theorem findSym_max (syms : List Str)
    (hsorted : List.Pairwise (fun a b => b.length ≤ a.length) syms)
    (s sym : Str) (hmem : sym ∈ syms) (hpre : startswith s sym = true) :
    ∃ sym', findSym syms s = some sym' ∧ sym.length ≤ sym'.length := by
  induction syms with
  | nil => simp at hmem
  | cons y ys ih =>
    rcases List.pairwise_cons.mp hsorted with ⟨hy, hys⟩
    by_cases h : startswith s y = true
    · refine ⟨y, by simp [findSym, h], ?_⟩
      rcases List.mem_cons.mp hmem with rfl | hm
      · exact le_refl _
      · exact hy sym hm
    · have hm : sym ∈ ys := by
        rcases List.mem_cons.mp hmem with rfl | hm
        · exact absurd hpre h
        · exact hm
      rcases ih hys hm with ⟨sym', h1, h2⟩
      exact ⟨sym', by simp [findSym, h, h1], h2⟩

/-- **C4.** `SYMBOLS_SORTED` lists the Inverse-Mapping keys in descending
codepoint-sequence length with ties kept in insertion order (the filter of each
length equals the corresponding filter of the `REVERSE` keys, and the whole
list is a length-preserving rearrangement); consequently the scanner's first
match at a position is always of maximal length: whenever any known symbol is a
prefix of the remaining input, the symbol actually matched is at least as
long. -/
theorem claim_C4 (s sym : Str) (hmem : sym ∈ SYMBOLS_SORTED)
    (hpre : startswith s sym = true) :
    (List.Pairwise (fun a b => b.length ≤ a.length) SYMBOLS_SORTED ∧
     SYMBOLS_SORTED.filter (fun t => t.length == 2) =
       (REVERSE.map Prod.fst).filter (fun t => t.length == 2) ∧
     SYMBOLS_SORTED.filter (fun t => t.length == 1) =
       (REVERSE.map Prod.fst).filter (fun t => t.length == 1) ∧
     SYMBOLS_SORTED.all (fun t => t.length == 1 || t.length == 2) = true ∧
     SYMBOLS_SORTED.length = (REVERSE.map Prod.fst).length) ∧
    ∃ sym', findSym SYMBOLS_SORTED s = some sym' ∧ sym.length ≤ sym'.length := by
  refine ⟨⟨by decide, by decide, by decide, by decide, by decide⟩, ?_⟩
  exact findSym_max SYMBOLS_SORTED (by decide) s sym hmem hpre

/-- Witness for C4: the single-codepoint symbol `V` is a prefix of the input
`V́X` (= `V`, U+0301, `X`), yet the matcher consumes the longer symbol `V́`
(length 2 ≥ 1), never splitting the combining-mark sequence. -/
theorem claim_C4_witness :
    ∃ sym', findSym SYMBOLS_SORTED ['V', cAcute, 'X'] = some sym' ∧
      (['V'] : Str).length ≤ sym'.length :=
  (claim_C4 ['V', cAcute, 'X'] ['V'] (by decide) (by decide)).2

end Alphabet

namespace Alphabet

/-! ### Claim C8: no matched symbol can lack candidates -/

theorem choose_some_of_opts (sym : Str) (prefs : List (Str × Str))
    (opts : List Str) (h : lookupRev REVERSE sym = some opts)
    (hne : opts ≠ []) :
    ∃ t, choose_latin_for_symbol sym prefs = some t := by
  rcases opts with _ | ⟨o1, _ | ⟨o2, os⟩⟩
  · exact absurd rfl hne
  · exact ⟨o1, by simp [choose_latin_for_symbol, h]⟩
  · rcases hlp : lookupPref prefs sym with _ | p
    · refine ⟨(sortedStrs (o1 :: o2 :: os)).headD [], ?_⟩
      simp [choose_latin_for_symbol, h, hlp]
    · by_cases hp : p ∈ o1 :: o2 :: os
      · exact ⟨p, by simp [choose_latin_for_symbol, h, hlp, hp]⟩
      · refine ⟨(sortedStrs (o1 :: o2 :: os)).headD [], ?_⟩
        simp [choose_latin_for_symbol, h, hlp, hp]

/-- **C8.** Every symbol in Symbol Match Order is a key of the Inverse Mapping
with at least one candidate token — and more than one exactly for the four
ambiguous symbols ヲ, `Z`, `A`, `V` — so for a matched symbol
`choose_latin_for_symbol` always returns a token (never `None`, under any
preference table): the `latin is None` fallback branch of `reverse_convert`
that would preserve the symbol is unreachable. -/
theorem claim_C8 (sym : Str) (prefs : List (Str × Str))
    (hmem : sym ∈ SYMBOLS_SORTED) :
    (∃ opts, lookupRev REVERSE sym = some opts ∧ opts ≠ [] ∧
      (1 < opts.length ↔ sym ∈ ([['ヲ'], ['Z'], ['A'], ['V']] : List Str))) ∧
    ∃ t, choose_latin_for_symbol sym prefs = some t := by
  have hall : ∀ x ∈ SYMBOLS_SORTED,
      (lookupRev REVERSE x).isSome = true ∧
      ((lookupRev REVERSE x).getD []) ≠ [] ∧
      (1 < ((lookupRev REVERSE x).getD []).length ↔
        x ∈ ([['ヲ'], ['Z'], ['A'], ['V']] : List Str)) := by decide
  rcases hall sym hmem with ⟨h1, h2, h3⟩
  rcases hlk : lookupRev REVERSE sym with _ | opts
  · rw [hlk] at h1
    simp at h1
  · rw [hlk] at h2 h3
    simp only [Option.getD_some] at h2 h3
    exact ⟨⟨opts, rfl, h2, h3⟩, choose_some_of_opts sym prefs opts hlk h2⟩

/-- Witness for C8: the ambiguous symbol ヲ has the three candidates
`C`, `K`, `Q` and resolves (here with empty preferences). -/
theorem claim_C8_witness :
    (∃ opts, lookupRev REVERSE ['ヲ'] = some opts ∧ opts ≠ [] ∧
      (1 < opts.length ↔ (['ヲ'] : Str) ∈ ([['ヲ'], ['Z'], ['A'], ['V']] : List Str))) ∧
    ∃ t, choose_latin_for_symbol ['ヲ'] [] = some t :=
  claim_C8 ['ヲ'] [] (by decide)

/-! ### Claim C9: totality and progress of both converters -/

/-- **C9.** Both converters are total Lean functions (termination was proved
when they were defined), and each loop iteration makes strict progress: on any
nonempty input (and any preference table) each converter emits a chunk and
recurses on the suffix obtained by dropping at least one — and at most all —
of the input's characters. -/
theorem claim_C9 (s : Str) (prefs : List (Str × Str)) (hne : s ≠ []) :
    (∃ pre k, 1 ≤ k ∧ k ≤ s.length ∧
      convert_text s = pre ++ convert_text (s.drop k)) ∧
    (∃ pre k, 1 ≤ k ∧ k ≤ s.length ∧
      reverse_convert s prefs = pre ++ reverse_convert (s.drop k) prefs) := by
  constructor
  · rcases s with _ | ⟨a, _ | ⟨b, rest⟩⟩
    · exact absurd rfl hne
    · refine ⟨convert_text [a], 1, le_refl _, by simp, ?_⟩
      simp [convert_text]
    · rcases h2 : lookup MAPPING [upperChar a, upperChar b] with _ | sym
      · rcases h1 : lookup MAPPING [upperChar a] with _ | sym1
        · refine ⟨[a], 1, le_refl _, by simp, ?_⟩
          simp [convert_text, h2, h1]
        · refine ⟨sym1, 1, le_refl _, by simp, ?_⟩
          simp [convert_text, h2, h1]
      · refine ⟨sym, 2, by omega, by simp, ?_⟩
        simp [convert_text, h2]
  · rcases hf : findSym SYMBOLS_SORTED s with _ | sym
    · rcases s with _ | ⟨c, rest⟩
      · exact absurd rfl hne
      · exact ⟨[c], 1, le_refl _, by simp,
          by simp [reverse_convert_pass c rest prefs hf]⟩
    · rcases findSym_eq_some hf with ⟨hmem, hpre⟩
      have hlen : sym.length ≤ s.length := startswith_length_le hpre
      have hnil : sym ≠ [] := symbols_sorted_ne_nil sym hmem
      have hpos : 1 ≤ sym.length := List.length_pos.mpr hnil
      exact ⟨_, sym.length, hpos, hlen, reverse_convert_pos s prefs sym hf⟩

/-- Witness for C9: progress on the one-character input `"A"`. -/
theorem claim_C9_witness :
    (∃ pre k, 1 ≤ k ∧ k ≤ (['A'] : Str).length ∧
      convert_text ['A'] = pre ++ convert_text (List.drop k ['A'])) ∧
    (∃ pre k, 1 ≤ k ∧ k ≤ (['A'] : Str).length ∧
      reverse_convert ['A'] [] = pre ++ reverse_convert (List.drop k ['A']) []) :=
  claim_C9 ['A'] [] (by decide)

end Alphabet

namespace Alphabet

/-! ### Claim C1: the round trip -/

/-- At the start of a symbol stream whose continuation does not begin with a
combining mark, the scanner matches exactly the leading symbol: no earlier
candidate in `SYMBOLS_SORTED` can be a prefix there. -/
theorem reverse_step (sym : Str) (hmem : sym ∈ SYMBOLS_SORTED) (t : Str)
    (hsafe : headSafe t = true) :
    findSym SYMBOLS_SORTED (sym ++ t) = some sym := by
  have hS : SYMBOLS_SORTED =
      [['V', cAcute], ['ﾚ', cGrave], ['V', cGrave], ['V', cMacron],
       ['T'], ['ﾚ'], ['Г'], ['ヲ'], ['コ'], ['H'], ['∀'], ['7'], ['X'],
       ['И'], ['Z'], ['П'], ['L'], ['F'], ['Λ'], ['E'], ['V'], ['A'], ['K']] := by
    decide
  rw [hS] at hmem ⊢
  rcases t with _ | ⟨a, t'⟩
  · fin_cases hmem <;> decide
  · simp only [headSafe, Bool.not_eq_true', Bool.or_eq_false_iff,
      beq_eq_false_iff_ne, ne_eq] at hsafe
    obtain ⟨⟨h1, h2⟩, h3⟩ := hsafe
    simp only [cAcute, cGrave, cMacron] at h1 h2 h3
    fin_cases hmem <;>
      simp [findSym, startswith, List.cons_append, List.nil_append,
        h1, h2, h3, Ne.symm h1, Ne.symm h2, Ne.symm h3, cAcute, cGrave, cMacron]

/-- Consuming a whole leading symbol: the scan of `sym ++ t` resolves `sym`
and continues on `t`. -/
theorem reverse_convert_append (sym t : Str) (prefs : List (Str × Str))
    (hmem : sym ∈ SYMBOLS_SORTED) (hsafe : headSafe t = true) :
    reverse_convert (sym ++ t) prefs =
      (match choose_latin_for_symbol sym prefs with
       | none => sym
       | some latin => latin) ++ reverse_convert t prefs := by
  have hf := reverse_step sym hmem t hsafe
  rw [reverse_convert_pos _ _ _ hf]
  congr 1
  congr 1
  simp

theorem lookup_val_mem {m : List (Str × Str)} {k v : Str}
    (h : lookup m k = some v) : v ∈ m.map Prod.snd := by
  induction m with
  | nil => simp [lookup] at h
  | cons p rest ih =>
    rcases p with ⟨a, b⟩
    by_cases ha : a = k
    · subst ha
      simp only [lookup, if_pos rfl] at h
      injection h with h
      simp [h]
    · simp [lookup, ha] at h
      simp [ih h]

/-- Every output symbol of the Mapping Table is nonempty, does not begin with
a combining mark, and is a key of the Inverse Mapping (hence a candidate in
Symbol Match Order). -/
theorem mapping_vals : ∀ v ∈ MAPPING.map Prod.snd,
    v ≠ [] ∧ headSafe v = true ∧ v ∈ SYMBOLS_SORTED := by decide

theorem headSafe_append (v t : Str) (h : v ≠ []) :
    headSafe (v ++ t) = headSafe v := by
  cases v with
  | nil => exact absurd rfl h
  | cons a as_ => rfl

/-- Per-letter facts for the round-trip alphabet: each letter of `goodLetters`
is its own uppercase form, is a mapped single-letter key, and its symbol
resolves back to exactly that letter under empty preferences. -/
theorem good_facts : ∀ c ∈ goodLetters,
    upperChar c = c ∧
    (lookup MAPPING [c]).isSome = true ∧
    choose_latin_for_symbol ((lookup MAPPING [c]).getD []) [] = some [c] := by
  decide

/-- Forward outputs of `goodLetters` strings never begin with a combining
mark. -/
theorem convert_headSafe (L : Str) (h : ∀ c ∈ L, c ∈ goodLetters) :
    headSafe (convert_text L) = true := by
  rcases L with _ | ⟨a, _ | ⟨b, rest⟩⟩
  · rfl
  · obtain ⟨hu, hs, _⟩ := good_facts a (h a (by simp))
    rcases h1 : lookup MAPPING [a] with _ | sym
    · rw [h1] at hs
      simp at hs
    · have hv := mapping_vals sym (lookup_val_mem h1)
      simp only [convert_text, hu, h1]
      exact hv.2.1
  · obtain ⟨hu, hs, _⟩ := good_facts a (h a (by simp))
    rcases h2 : lookup MAPPING [upperChar a, upperChar b] with _ | sym
    · rcases h1 : lookup MAPPING [upperChar a] with _ | sym1
      · rw [hu] at h1
        rw [h1] at hs
        simp at hs
      · have hv := mapping_vals sym1 (lookup_val_mem h1)
        simp only [convert_text, h2, h1]
        rw [headSafe_append _ _ hv.1]
        exact hv.2.1
    · have hv := mapping_vals sym (lookup_val_mem h2)
      simp only [convert_text, h2]
      rw [headSafe_append _ _ hv.1]
      exact hv.2.1

end Alphabet

namespace Alphabet

/-- **C1, counterexample.**  The claim says that under *empty* preferences
`"K"` round-trips to `"K"` (and `"C"`, `"Q"` to `"K"`).  In the code the
preference tier is skipped for an empty table and the fallback is the
lexicographically smallest candidate, so the round trip of `"K"` yields
`"C"`. -/
theorem claim_C1_counterexample :
    reverse_convert (convert_text ['K']) [] = ['C'] ∧ (['C'] : Str) ≠ ['K'] := by
  constructor
  · rw [show convert_text ['K'] = ['ヲ'] from by decide]
    have hf : findSym SYMBOLS_SORTED ['ヲ'] = some ['ヲ'] := by decide
    rw [reverse_convert_pos _ _ _ hf]
    rw [show choose_latin_for_symbol ['ヲ'] [] = some ['C'] from by decide]
    simp [reverse_convert_nil]
  · decide

/-- **C1, amended.**  For every string over the uppercase Latin letters whose
symbol resolves back to the letter itself under the lexicographic-min fallback
(all letters except `K`, `Q`, `R`, `W`, `Z` — see `goodLetters`),
`reverse_convert (convert_text L) {} = L`; and under empty preferences
`"C"`, `"K"` and `"Q"` all round-trip to `"C"` (not `"K"`), the
lexicographically smallest of the three candidates. -/
theorem claim_C1 (L : Str) (h : ∀ c ∈ L, c ∈ goodLetters) :
    reverse_convert (convert_text L) [] = L ∧
    reverse_convert (convert_text ['C']) [] = ['C'] ∧
    reverse_convert (convert_text ['K']) [] = ['C'] ∧
    reverse_convert (convert_text ['Q']) [] = ['C'] := by
  have hwo : reverse_convert ['ヲ'] [] = ['C'] := by
    have hf : findSym SYMBOLS_SORTED ['ヲ'] = some ['ヲ'] := by decide
    rw [reverse_convert_pos _ _ _ hf]
    rw [show choose_latin_for_symbol ['ヲ'] [] = some ['C'] from by decide]
    simp [reverse_convert_nil]
  refine ⟨?_, ?_, ?_, ?_⟩
  · induction L using convert_text.induct with
    | case1 => simp [convert_text, reverse_convert_nil]
    | case2 a b rest sym hab ih =>
      obtain ⟨hua, _, _⟩ := good_facts a (h a (by simp))
      obtain ⟨hub, _, _⟩ := good_facts b (h b (by simp))
      have hrest : ∀ c ∈ rest, c ∈ goodLetters := fun c hc => h c (by simp [hc])
      have hih := ih hrest
      rw [hua, hub] at hab
      have hk := two_char_keys _ (lookup_mem hab) (by simp)
      have hcv : convert_text (a :: b :: rest) = sym ++ convert_text rest := by
        simp only [convert_text]
        rw [hua, hub, hab]
      rcases hk with heq | heq
      · simp only [List.cons.injEq, and_true] at heq
        obtain ⟨ha, hb⟩ := heq
        subst ha
        subst hb
        have hsym : sym = ['T'] := by
          have hx : lookup MAPPING [('C' : Char), 'H'] = some ['T'] := by decide
          rw [hx] at hab
          injection hab with hab
          exact hab.symm
        subst hsym
        rw [hcv, reverse_convert_append ['T'] _ [] (by decide)
          (convert_headSafe rest hrest)]
        rw [show choose_latin_for_symbol ['T'] [] = some ['C', 'H'] from by decide]
        simp [hih]
      · simp only [List.cons.injEq, and_true] at heq
        obtain ⟨ha, hb⟩ := heq
        subst ha
        subst hb
        have hsym : sym = ['ﾚ'] := by
          have hx : lookup MAPPING [('S' : Char), 'H'] = some ['ﾚ'] := by decide
          rw [hx] at hab
          injection hab with hab
          exact hab.symm
        subst hsym
        rw [hcv, reverse_convert_append ['ﾚ'] _ [] (by decide)
          (convert_headSafe rest hrest)]
        rw [show choose_latin_for_symbol ['ﾚ'] [] = some ['S', 'H'] from by decide]
        simp [hih]
    | case3 a b rest h2 sym h1 ih =>
      obtain ⟨hua, _, hc⟩ := good_facts a (h a (by simp))
      have hbrest : ∀ c ∈ b :: rest, c ∈ goodLetters :=
        fun c hc' => h c (List.mem_cons_of_mem _ hc')
      have hih := ih hbrest
      rw [hua] at h1
      have hmem := (mapping_vals sym (lookup_val_mem h1)).2.2
      have hchoose : choose_latin_for_symbol sym [] = some [a] := by
        rw [h1] at hc
        simpa using hc
      have hcv : convert_text (a :: b :: rest) = sym ++ convert_text (b :: rest) := by
        simp only [convert_text, h2]
        rw [hua, h1]
      rw [hcv, reverse_convert_append sym _ [] hmem
        (convert_headSafe (b :: rest) hbrest), hchoose]
      simp [hih]
    | case4 a b rest h2 h1 ih =>
      obtain ⟨hua, hs, _⟩ := good_facts a (h a (by simp))
      rw [hua] at h1
      rw [h1] at hs
      simp at hs
    | case5 a sym h1 =>
      obtain ⟨hua, _, hc⟩ := good_facts a (h a (by simp))
      rw [hua] at h1
      have hmem := (mapping_vals sym (lookup_val_mem h1)).2.2
      have hchoose : choose_latin_for_symbol sym [] = some [a] := by
        rw [h1] at hc
        simpa using hc
      have hcv : convert_text [a] = sym := by
        simp only [convert_text]
        rw [hua, h1]
      rw [hcv, ← List.append_nil sym,
        reverse_convert_append sym [] [] hmem rfl, hchoose]
      simp [reverse_convert_nil]
    | case6 a h1 =>
      obtain ⟨hua, hs, _⟩ := good_facts a (h a (by simp))
      rw [hua] at h1
      rw [h1] at hs
      simp at hs
  · rw [show convert_text ['C'] = ['ヲ'] from by decide]
    exact hwo
  · rw [show convert_text ['K'] = ['ヲ'] from by decide]
    exact hwo
  · rw [show convert_text ['Q'] = ['ヲ'] from by decide]
    exact hwo


/-- Witness for C1: the all-good-letters word `"BADGE"` round-trips exactly
under empty preferences. -/
theorem claim_C1_witness :
    reverse_convert (convert_text ['B', 'A', 'D', 'G', 'E']) [] =
      ['B', 'A', 'D', 'G', 'E'] :=
  (claim_C1 ['B', 'A', 'D', 'G', 'E'] (by decide)).1

end Alphabet
